import Mathlib

/-!
Shallow embedding of the filtering-and-derivation core of the PHX Data Canal
dashboard (a React/TypeScript record browser over job postings).  The record
type, the filter pipeline, the aggregator helpers, the phrase extractor and
the freshness bucketizer are translated from the main component file; the
theorems below settle the specification claims against this embedding.

Modelling conventions:
- JavaScript numbers that hold wages are non-negative integers in the data,
  so wages are `Option Nat` (`none` for a JSON null).  `Math.round` of a
  quotient of naturals is computed exactly on naturals.
- JS `Map` and `Set` keep insertion order; they are modelled as association
  lists / lists deduplicated at first occurrence.  `Array.prototype.sort` is
  stable (ES2019), so it is modelled by a stable insertion sort; the result
  is the same for any stable sort because the comparator only reads counts.
- String comparison operators in JS compare UTF-16 code units; they are
  modelled by an explicit lexicographic comparison on the character lists
  (`jsLtChars`), which coincides with the JS order on the ASCII data.
-/

set_option maxRecDepth 8000

/-- One job posting, as in types.ts (interface JobRecord).  `wage` is `none`
when the JSON field is null; listed wages are non-negative integers. -/
structure JobRecord where
  id : Nat
  jobTitle : String
  employer : String
  location : String
  datePosted : String
  status : String
  wage : Option Nat
  category : String
  occupationName : String
  soc : String
  url : String
deriving DecidableEq

/-- The code points of the JavaScript whitespace class matched by the regex
class \s and trimmed by String.prototype.trim. -/
def jsWhitespace (c : Char) : Bool :=
  c.toNat = 32 || c.toNat = 9 || c.toNat = 10 || c.toNat = 11 || c.toNat = 12 ||
  c.toNat = 13 || c.toNat = 0xa0 || c.toNat = 0x1680 ||
  (0x2000 ≤ c.toNat && c.toNat ≤ 0x200a) || c.toNat = 0x2028 || c.toNat = 0x2029 ||
  c.toNat = 0x202f || c.toNat = 0x205f || c.toNat = 0x3000 || c.toNat = 0xfeff

/-- JS String.prototype.trim: strip leading and trailing whitespace. -/
def jsTrim (s : String) : String :=
  String.mk (((s.toList.dropWhile jsWhitespace).reverse.dropWhile jsWhitespace).reverse)

/-- Does the character list `hay` start with `needle`? -/
def startsWithChars : List Char → List Char → Bool
  | [], _ => true
  | _ :: _, [] => false
  | a :: as, b :: bs => a = b && startsWithChars as bs

/-- Does `needle` occur contiguously somewhere in the haystack? -/
def occursIn (needle : List Char) : List Char → Bool
  | [] => startsWithChars needle []
  | c :: rest => startsWithChars needle (c :: rest) || occursIn needle rest

/-- JS a.includes(b): b occurs as a contiguous substring of a. -/
def jsIncludes (a b : String) : Bool := occursIn b.toList a.toList

/-- JS String.prototype.toLowerCase.  All record text is ASCII, where this
agrees with per-character ASCII lowercasing. -/
def jsToLower (s : String) : String := String.mk (s.toList.map Char.toLower)

/-- Lexicographic strictly-less on character lists, by code point.  This is
the comparison JS applies to strings (by UTF-16 code unit; identical for the
ASCII date strings involved). -/
def jsLtChars : List Char → List Char → Bool
  | [], [] => false
  | [], _ :: _ => true
  | _ :: _, [] => false
  | a :: as, b :: bs => if a < b then true else if b < a then false else jsLtChars as bs

/-- JS a < b on strings. -/
def jsStrLt (a b : String) : Bool := jsLtChars a.toList b.toList

/-- JS a <= b on strings (total order: not b < a). -/
def jsStrLe (a b : String) : Bool := !(jsStrLt b a)

/-- The predicate `r.wage != null && r.wage > 0` used by avgWage and the
stats ("record has a listed wage"). -/
def hasWage (j : JobRecord) : Bool :=
  match j.wage with
  | some w => decide (0 < w)
  | none => false

/-- Math.round (s / n) for naturals with n > 0, computed exactly
(round half up: floor ((2s + n) / 2n)). -/
def roundDiv (s n : Nat) : Nat := (2 * s + n) / (2 * n)

/-- avgWage from the source: arithmetic mean of the listed wages, rounded to
the nearest integer, and 0 when no record has a listed wage. -/
def avgWage (arr : List JobRecord) : Nat :=
  let withWage := arr.filter hasWage
  if withWage.length = 0 then 0
  else roundDiv ((withWage.map (fun j => j.wage.getD 0)).sum) withWage.length

/-- First-occurrence deduplication: the element order a JS Set retains. -/
def dedupFirst (vals : List String) : List String :=
  vals.foldl (fun acc v => if acc.contains v then acc else acc ++ [v]) []

/-- One step of a stable insertion sort on strings in nondecreasing order. -/
def insertStr (x : String) : List String → List String
  | [] => [x]
  | y :: ys => if jsStrLe x y then x :: y :: ys else y :: insertStr x ys

/-- Array.prototype.sort with (a, b) => a.localeCompare(b), modelled as a
sort by code-unit order (the stored values are ASCII, where the orders
agree; no claim depends on the resulting order, only on the set). -/
def sortStr (l : List String) : List String := l.foldr insertStr []

/-- getUniqueValues from the source: the sorted distinct trimmed non-empty
values of a field. -/
def getUniqueValues (data : List JobRecord) (field : JobRecord → String) : List String :=
  sortStr (dedupFirst (((data.map field).map jsTrim).filter (fun s => s != "")))

/-- The filter-toolbar state of the App component. -/
structure FilterState where
  activeCategory : Option String
  selectedEmployers : Finset String
  selectedLocations : Finset String
  selectedStatuses : Finset String
  wageFilter : String
  dateFrom : String
  dateTo : String
  searchText : String

/-- Category stage of filteredJobs.  JS tests `if (activeCategory)`, so both
null and the empty string are "no restriction". -/
def categoryStage (ac : Option String) (data : List JobRecord) : List JobRecord :=
  match ac with
  | none => data
  | some c => if c = "" then data else data.filter (fun j => j.category == c)

/-- Wage-band stage of filteredJobs: the switch on wageFilter.  A tag that
matches no case leaves the data unchanged (the switch has no default). -/
def wageStage (wf : String) (data : List JobRecord) : List JobRecord :=
  if wf = "all" then data
  else if wf = "listed" then
    data.filter (fun j => match j.wage with | some w => decide (0 < w) | none => false)
  else if wf = "unlisted" then
    data.filter (fun j => match j.wage with | some w => decide (w = 0) | none => true)
  else if wf = "150k+" then
    data.filter (fun j => match j.wage with | some w => decide (150000 ≤ w) | none => false)
  else if wf = "100k-150k" then
    data.filter (fun j =>
      match j.wage with | some w => decide (100000 ≤ w) && decide (w < 150000) | none => false)
  else if wf = "50k-100k" then
    data.filter (fun j =>
      match j.wage with | some w => decide (50000 ≤ w) && decide (w < 100000) | none => false)
  else if wf = "under50k" then
    data.filter (fun j =>
      match j.wage with | some w => decide (0 < w) && decide (w < 50000) | none => false)
  else data

/-- Lower date bound: `if (dateFrom) data.filter(j => j.datePosted >= dateFrom)`.
The comparison is plain lexicographic string comparison. -/
def dateLowerStage (dateFrom : String) (data : List JobRecord) : List JobRecord :=
  if dateFrom = "" then data
  else data.filter (fun j => jsStrLe dateFrom j.datePosted)

/-- Upper date bound: `if (dateTo) data.filter(j => j.datePosted <= dateTo)`. -/
def dateUpperStage (dateTo : String) (data : List JobRecord) : List JobRecord :=
  if dateTo = "" then data
  else data.filter (fun j => jsStrLe j.datePosted dateTo)

/-- Free-text stage: skipped when the trimmed query is empty, but matching
uses the untrimmed lowercased query, as in the source. -/
def searchStage (searchText : String) (data : List JobRecord) : List JobRecord :=
  if jsTrim searchText = "" then data
  else
    let q := jsToLower searchText
    data.filter (fun j =>
      jsIncludes (jsToLower j.jobTitle) q || jsIncludes (jsToLower j.employer) q ||
        jsIncludes (jsToLower j.location) q)

/-- filteredJobs from the source: the full pipeline.  Each inclusion-set
stage is skipped when the selected set has at least as many elements as the
list of distinct values of the field (`selected.size < all.length`). -/
def filteredJobs (jobs : List JobRecord) (fs : FilterState) : List JobRecord :=
  let allEmployers := getUniqueValues jobs (fun j => j.employer)
  let allLocations := getUniqueValues jobs (fun j => j.location)
  let allStatuses := getUniqueValues jobs (fun j => j.status)
  let d1 := categoryStage fs.activeCategory jobs
  let d2 := if fs.selectedEmployers.card < allEmployers.length then
      d1.filter (fun j => decide (j.employer ∈ fs.selectedEmployers)) else d1
  let d3 := if fs.selectedLocations.card < allLocations.length then
      d2.filter (fun j => decide (j.location ∈ fs.selectedLocations)) else d2
  let d4 := if fs.selectedStatuses.card < allStatuses.length then
      d3.filter (fun j => decide (j.status ∈ fs.selectedStatuses)) else d3
  let d5 := wageStage fs.wageFilter d4
  let d6 := dateLowerStage fs.dateFrom d5
  let d7 := dateUpperStage fs.dateTo d6
  searchStage fs.searchText d7

/-! ## Freshness bucketizer (component PostingFreshness)

The component fixes `today = new Date('2026-02-27T00:00:00')` (local
midnight) and derives each band's cutoff by calendar-day subtraction
(`setDate(getDate() - maxDays)`) followed by `toISOString().slice(0, 10)`.
The previous band's edge is recomputed with millisecond arithmetic
(`today.getTime() - prevMax * 86400000`); in the deployed timezone
(America/Phoenix, fixed UTC-7, no DST) both computations yield the ISO
string of the same calendar date, which is what `isoString ∘ subDays`
models. -/

/-- A calendar date. -/
structure CivilDate where
  year : Nat
  month : Nat
  day : Nat

def isLeap (y : Nat) : Bool := (y % 4 = 0 && y % 100 ≠ 0) || y % 400 = 0

def daysInMonth (y m : Nat) : Nat :=
  if m = 2 then (if isLeap y then 29 else 28)
  else if m = 4 || m = 6 || m = 9 || m = 11 then 30
  else 31

def prevDay (d : CivilDate) : CivilDate :=
  if 1 < d.day then ⟨d.year, d.month, d.day - 1⟩
  else if 1 < d.month then ⟨d.year, d.month - 1, daysInMonth d.year (d.month - 1)⟩
  else ⟨d.year - 1, 12, 31⟩

/-- Calendar-day subtraction, as performed by setDate(getDate() - k). -/
def subDays (d : CivilDate) : Nat → CivilDate
  | 0 => d
  | k + 1 => subDays (prevDay d) k

def padNum (n : Nat) : String := if n < 10 then "0" ++ toString n else toString n

/-- toISOString().slice(0, 10) of a local-midnight date, in a timezone at or
behind UTC (such as the app's America/Phoenix): the ISO date equals the
local calendar date. -/
def isoString (d : CivilDate) : String :=
  toString d.year ++ "-" ++ padNum d.month ++ "-" ++ padNum d.day

/-- The reference date hardcoded in the component. -/
def refDate : CivilDate := ⟨2026, 2, 27⟩

/-- The band table of the component (label, maxDays); `none` is Infinity. -/
def freshnessRanges : List (String × Option Nat) :=
  [("Last 5 days", some 5), ("6–10 days", some 10), ("11–30 days", some 30),
   ("31–60 days", some 60), ("60+ days", none)]

/-- The band predicate of one loop iteration: `j.datePosted >= cutoffStr`
for the first band (prevMax = 0), and additionally `< prevStr` afterwards.
`cutoffStr`/`prevStr` are the ISO strings of today minus maxDays/prevMax
calendar days. -/
def freshKeep (today : CivilDate) (m prevMax : Nat) (j : JobRecord) : Bool :=
  if prevMax = 0 then jsStrLe (isoString (subDays today m)) j.datePosted
  else jsStrLe (isoString (subDays today m)) j.datePosted &&
    jsStrLt j.datePosted (isoString (subDays today prevMax))

/-- The `ranges.map` loop of the component with its mutable `remaining`
array made explicit.  `remaining.filter(j => !matching.includes(j))` removes
exactly the records satisfying the band predicate, since `matching` is
`remaining.filter(pred)` and `includes` finds every element of it. -/
def freshLoop (today : CivilDate) :
    List (String × Option Nat) → Nat → List JobRecord → List (String × Nat)
  | [], _, _ => []
  | (label, none) :: rest, prevMax, _remaining =>
      (label, _remaining.length) :: freshLoop today rest prevMax []
  | (label, some m) :: rest, prevMax, remaining =>
      (label, (remaining.filter (freshKeep today m prevMax)).length)
        :: freshLoop today rest m (remaining.filter (fun j => !(freshKeep today m prevMax j)))

/-- The bucket list computed by PostingFreshness (labels with counts). -/
def postingFreshness (data : List JobRecord) : List (String × Nat) :=
  freshLoop refDate freshnessRanges 0 data

/-- Total of the bucket counts. -/
def sumCounts (l : List (String × Nat)) : Nat := (l.map Prod.snd).sum

/-- Band membership predicates induced by the fixed reference date
2026-02-27: cutoffs 2026-02-22 / 2026-02-17 / 2026-01-28 / 2025-12-29. -/
def band0 (d : String) : Bool := jsStrLe "2026-02-22" d

def band1 (d : String) : Bool := jsStrLe "2026-02-17" d && jsStrLt d "2026-02-22"

def band2 (d : String) : Bool := jsStrLe "2026-01-28" d && jsStrLt d "2026-02-17"

def band3 (d : String) : Bool := jsStrLe "2025-12-29" d && jsStrLt d "2026-01-28"

def band4 (d : String) : Bool := jsStrLt d "2025-12-29"

/-! ## Aggregator: group-by-count ranking (component TopEmployersChart) -/

/-- One step counts.set(k, (counts.get(k) || 0) + 1) on an insertion-ordered map. -/
def bump (counts : List (String × Nat)) (k : String) : List (String × Nat) :=
  match counts with
  | [] => [(k, 1)]
  | (x, v) :: rest => if x = k then (x, v + 1) :: rest else (x, v) :: bump rest k

/-- Build the value → count map of a list of values, in first-seen order. -/
def countsBy (vals : List String) : List (String × Nat) := vals.foldl bump []

/-- One step of the stable insertion sort by count descending: a new element
passes every earlier element of equal or larger count. -/
def insertDesc (x : String × Nat) : List (String × Nat) → List (String × Nat)
  | [] => [x]
  | y :: ys => if y.2 < x.2 then x :: y :: ys else y :: insertDesc x ys

/-- Array.prototype.sort((a, b) => b[1] - a[1]): a stable sort by count descending. -/
def sortByCountDesc (l : List (String × Nat)) : List (String × Nat) :=
  l.foldl (fun acc x => insertDesc x acc) []

/-- topEmployers from the component: count postings per employer, sort by
count descending (stable), keep the first 8. -/
def topEmployers (data : List JobRecord) : List (String × Nat) :=
  (sortByCountDesc (countsBy (data.map (fun j => j.employer)))).take 8

/-- The order in which employer values first appear in the subset. -/
def firstSeen (data : List JobRecord) : List String :=
  dedupFirst (data.map (fun j => j.employer))

/-- Position of a value in a list (length if absent). -/
def idxIn : List String → String → Nat
  | [], _ => 0
  | x :: t, e => if x = e then 0 else idxIn t e + 1

/-- Rank of an employer in first-seen order. -/
def seenRank (data : List JobRecord) (e : String) : Nat := idxIn (firstSeen data) e

/-! ## Phrase extractor (component TopKeywords) -/

def stopWords : List String :=
  ["the", "and", "for", "with", "from", "that", "this", "will", "are",
   "not", "but", "have", "has", "been", "its", "also", "into", "over",
   "upon", "senior", "principal", "lead", "staff", "junior", "associate",
   "level", "iii", "remote"]

/-- The punctuation characters replaced by spaces: /[-–/,()]/g. -/
def isPunctChar (c : Char) : Bool :=
  c = '-' || c = '–' || c = '/' || c = ',' || c = '(' || c = ')'

def isAsciiLetter (c : Char) : Bool :=
  ('a' ≤ c && c ≤ 'z') || ('A' ≤ c && c ≤ 'Z')

/-- Split a character list at every whitespace character.  JS splits on
whitespace runs (/\s+/), which differs only by extra empty tokens; both are
removed by the later length > 1 filter, so the cleaned word lists agree. -/
def tokenize : List Char → List Char → List String
  | [], cur => [String.mk cur.reverse]
  | c :: rest, cur =>
      if jsWhitespace c then String.mk cur.reverse :: tokenize rest []
      else tokenize rest (c :: cur)

/-- cleanTitle from the source: punctuation to spaces, keep only ASCII
letters and whitespace, split, lowercase, drop short and stop words. -/
def cleanTitle (title : String) : List String :=
  let step1 := title.toList.map (fun c => if isPunctChar c then ' ' else c)
  let step2 := step1.filter (fun c => isAsciiLetter c || jsWhitespace c)
  ((tokenize step2 []).map (fun w => String.mk (w.toList.map Char.toLower))).filter
    (fun w => decide (1 < w.length) && !(stopWords.contains w))

/-- The n-token windows of a word list: words.slice(i, i + n).join(' ') for
0 ≤ i ≤ words.length - n. -/
def windowsN (ws : List String) (n : Nat) : List String :=
  (List.range (ws.length + 1 - n)).map (fun i => String.intercalate " " ((ws.drop i).take n))

/-- All candidate phrases of one title, in generation order (n = 2, 3, 4). -/
def titleWindows (ws : List String) : List String :=
  windowsN ws 2 ++ windowsN ws 3 ++ windowsN ws 4

/-- The per-title loop: bump each phrase not yet in the title-local `seen`
set, then add it to `seen`. -/
def addWindows : List (String × Nat) → List String → List String → List (String × Nat)
  | counts, _, [] => counts
  | counts, seen, w :: rest =>
      if seen.contains w then addWindows counts seen rest
      else addWindows (bump counts w) (w :: seen) rest

/-- Accumulate the phrase counts of one title into the global map. -/
def addTitle (counts : List (String × Nat)) (ws : List String) : List (String × Nat) :=
  addWindows counts [] (titleWindows ws)

def phraseCountsFrom (counts : List (String × Nat)) : List JobRecord → List (String × Nat)
  | [] => counts
  | j :: rest => phraseCountsFrom (addTitle counts (cleanTitle j.jobTitle)) rest

/-- phraseCounts from the source: support per distinct phrase, where each
title contributes at most 1 to each phrase. -/
def phraseCounts (data : List JobRecord) : List (String × Nat) :=
  phraseCountsFrom [] data

/-- Candidates: phrases with support ≥ 2, sorted by support descending. -/
def phraseCandidates (data : List JobRecord) : List (String × Nat) :=
  sortByCountDesc ((phraseCounts data).filter (fun p => decide (2 ≤ p.2)))

/-- The containment test of the selection loop.  For a kept phrase `e`, the
candidate `p` (support `c`) is dominated when `p` is a substring of `e`, or
when `e` is a substring of `p` and `c >= e.2` (the `existingCount` looked up
with `selected.find`, which is the count stored with `e`). -/
def dominatedB (acc : List (String × Nat)) (p : String) (c : Nat) : Bool :=
  acc.any (fun e => jsIncludes e.1 p || (jsIncludes p e.1 && decide (e.2 ≤ c)))

/-- The selection loop: keep non-dominated candidates in order, stopping
after the check `if (selected.length >= 15) break` that follows each
iteration (the length check is written once per branch of the push). -/
def selectLoop : List (String × Nat) → List (String × Nat) → List (String × Nat)
  | [], acc => acc
  | (p, c) :: rest, acc =>
      if dominatedB acc p c then
        if 15 ≤ acc.length then acc else selectLoop rest acc
      else
        if 15 ≤ (acc ++ [(p, c)]).length then acc ++ [(p, c)]
        else selectLoop rest (acc ++ [(p, c)])

/-- The selected (phrase, support) pairs before title-casing. -/
def selectedPhrases (data : List JobRecord) : List (String × Nat) :=
  selectLoop (phraseCandidates data) []

/-- JS \w word characters: ASCII letters, digits, underscore. -/
def isWordChar (c : Char) : Bool := isAsciiLetter c || c.isDigit || c = '_'

def titleCaseAux : Bool → List Char → List Char
  | _, [] => []
  | prevWord, c :: rest =>
      (if isWordChar c && !prevWord then c.toUpper else c) :: titleCaseAux (isWordChar c) rest

/-- phrase.replace(/\b\w/g, c => c.toUpperCase()): uppercase every word
character that does not follow a word character. -/
def titleCase (s : String) : String := String.mk (titleCaseAux false s.toList)

/-- The keyword list the component renders: selected phrases, title-cased,
with their support counts. -/
def topKeywords (data : List JobRecord) : List (String × Nat) :=
  (selectedPhrases data).map (fun x => (titleCase x.1, x.2))

/-! ## Concrete inputs used by counterexamples and witnesses -/

/-- A record with the given id and title (other fields constant). -/
def titleJob (i : Nat) (title : String) : JobRecord :=
  ⟨i, title, "E", "L", "2026-02-20", "Active", none, "C", "O", "S", "U"⟩

/-- A record with the given id and wage (other fields constant). -/
def wageJob (i : Nat) (w : Option Nat) : JobRecord :=
  ⟨i, "T", "E", "L", "2026-02-20", "A", w, "C", "O", "S", "U"⟩

/-- A record whose datePosted is not a parseable calendar date. -/
def badDateJob : JobRecord := ⟨99, "T", "E", "L", "banana", "A", none, "C", "O", "S", "U"⟩

/-- Four titles for which the selection loop keeps both a phrase and a
strict superphrase of it. -/
def cexPhrases : List JobRecord :=
  [titleJob 1 "Data Center Engineer", titleJob 2 "Data Center Engineer",
   titleJob 3 "Data Center Manager", titleJob 4 "Network Center Engineer"]

/-! ## General helper lemmas -/

theorem length_le_sum_of_one_le :
    ∀ (l : List Nat), (∀ x ∈ l, 1 ≤ x) → l.length ≤ l.sum
  | [], _ => Nat.le_refl 0
  | x :: l, h => by
    have hx := h x (List.mem_cons_self x l)
    have ih := length_le_sum_of_one_le l (fun y hy => h y (List.mem_cons_of_mem x hy))
    simp only [List.length_cons, List.sum_cons]
    omega

theorem roundDiv_pos {s n : Nat} (hn : 1 ≤ n) (hs : n ≤ s) : 1 ≤ roundDiv s n := by
  unfold roundDiv
  rw [Nat.le_div_iff_mul_le (by omega : 0 < 2 * n)]
  omega

theorem hasWage_iff (j : JobRecord) : hasWage j = true ↔ ∃ w, j.wage = some w ∧ 0 < w := by
  cases hw : j.wage <;> simp [hasWage, hw]

/-! ## C6: average wage -/

/-- C6.  The average wage is 0 exactly when no record of the subset has a
listed positive wage; otherwise it is the rounded mean of the listed wages,
with absent/zero wages excluded from numerator and denominator alike. -/
theorem avg_wage_spec (arr : List JobRecord) :
    (avgWage arr = 0 ↔ ¬∃ j ∈ arr, ∃ w, j.wage = some w ∧ 0 < w) ∧
    ((∃ j ∈ arr, ∃ w, j.wage = some w ∧ 0 < w) →
      avgWage arr =
        roundDiv (((arr.filter hasWage).map (fun j => j.wage.getD 0)).sum)
          ((arr.filter hasWage).length)) := by
  by_cases hlen : (arr.filter hasWage).length = 0
  · have hnil : arr.filter hasWage = [] := List.length_eq_zero.mp hlen
    have hno : ¬∃ j ∈ arr, ∃ w, j.wage = some w ∧ 0 < w := by
      rintro ⟨j, hj, w, hw, hposw⟩
      have hmem : j ∈ arr.filter hasWage :=
        List.mem_filter.mpr ⟨hj, (hasWage_iff j).mpr ⟨w, hw, hposw⟩⟩
      rw [hnil] at hmem
      exact absurd hmem (List.not_mem_nil j)
    refine ⟨⟨fun _ => hno, fun _ => ?_⟩, fun h => absurd h hno⟩
    simp [avgWage, hlen]
  · have hpos1 : 1 ≤ (arr.filter hasWage).length := Nat.one_le_iff_ne_zero.mpr hlen
    have hsum : (arr.filter hasWage).length ≤
        ((arr.filter hasWage).map (fun j => j.wage.getD 0)).sum := by
      have hall : ∀ x ∈ (arr.filter hasWage).map (fun j => j.wage.getD 0), 1 ≤ x := by
        intro x hx
        obtain ⟨j, hj, rfl⟩ := List.mem_map.mp hx
        obtain ⟨w, hw, hposw⟩ := (hasWage_iff j).mp (List.mem_filter.mp hj).2
        simp only [hw, Option.getD_some]
        omega
      have := length_le_sum_of_one_le _ hall
      simpa using this
    have havg : avgWage arr =
        roundDiv (((arr.filter hasWage).map (fun j => j.wage.getD 0)).sum)
          ((arr.filter hasWage).length) := by
      simp [avgWage, hlen]
    have hge : 1 ≤ avgWage arr := by
      rw [havg]; exact roundDiv_pos hpos1 hsum
    have hex : ∃ j ∈ arr, ∃ w, j.wage = some w ∧ 0 < w := by
      obtain ⟨j, hj⟩ := List.exists_mem_of_ne_nil (arr.filter hasWage)
        (List.length_pos.mp (by omega : 0 < (arr.filter hasWage).length))
      have hm := List.mem_filter.mp hj
      exact ⟨j, hm.1, (hasWage_iff j).mp hm.2⟩
    exact ⟨⟨fun h0 => absurd hge (by rw [h0]; decide), fun hn => absurd hex hn⟩,
      fun _ => havg⟩

/-- Witness for C6: a concrete subset with two listed wages, whose average
is the half-up rounding of their mean. -/
theorem avg_wage_spec_witness :
    avgWage [wageJob 1 (some 100000), wageJob 2 (some 100001)] = roundDiv 200001 2 :=
  (avg_wage_spec [wageJob 1 (some 100000), wageJob 2 (some 100001)]).2
    ⟨wageJob 1 (some 100000), by simp, 100000, rfl, by omega⟩

/-! ## C8: wage-band predicates -/

/-- C8.  The "100k-150k" band keeps exactly the records with a listed wage
in [100000, 150000) — on wages [90000, 120000, 150000, null] only the
120000 record — and the other bands have their stated semantics. -/
theorem wage_band_semantics :
    (wageStage "100k-150k"
        [wageJob 1 (some 90000), wageJob 2 (some 120000), wageJob 3 (some 150000),
         wageJob 4 none]
      = [wageJob 2 (some 120000)]) ∧
    ∀ (data : List JobRecord) (j : JobRecord),
      (j ∈ wageStage "100k-150k" data ↔
        j ∈ data ∧ ∃ w, j.wage = some w ∧ 100000 ≤ w ∧ w < 150000) ∧
      (j ∈ wageStage "150k+" data ↔ j ∈ data ∧ ∃ w, j.wage = some w ∧ 150000 ≤ w) ∧
      (j ∈ wageStage "50k-100k" data ↔
        j ∈ data ∧ ∃ w, j.wage = some w ∧ 50000 ≤ w ∧ w < 100000) ∧
      (j ∈ wageStage "under50k" data ↔
        j ∈ data ∧ ∃ w, j.wage = some w ∧ 0 < w ∧ w < 50000) ∧
      (j ∈ wageStage "listed" data ↔ j ∈ data ∧ ∃ w, j.wage = some w ∧ 0 < w) ∧
      (j ∈ wageStage "unlisted" data ↔ j ∈ data ∧ (j.wage = none ∨ j.wage = some 0)) := by
  refine ⟨by decide, fun data j => ?_⟩
  refine ⟨?_, ?_, ?_, ?_, ?_, ?_⟩ <;>
    · cases hw : j.wage <;> simp [wageStage, List.mem_filter, hw]

/-- Witness for C8: the 120000 record is kept by the "100k-150k" band. -/
theorem wage_band_semantics_witness :
    wageJob 2 (some 120000) ∈ wageStage "100k-150k" [wageJob 2 (some 120000)] :=
  (wage_band_semantics.2 [wageJob 2 (some 120000)] (wageJob 2 (some 120000))).1.mpr
    ⟨by simp, 120000, rfl, by omega, by omega⟩

/-! ## C3, C10, C2: freshness bucketizer -/

theorem length_filter_add_length_filter_not {α : Type} (l : List α) (p : α → Bool) :
    (l.filter p).length + (l.filter (fun a => !(p a))).length = l.length := by
  induction l with
  | nil => rfl
  | cons x l ih =>
    cases h : p x <;> simp [List.filter_cons, h] <;> omega

theorem sumCounts_cons (x : String × Nat) (l : List (String × Nat)) :
    sumCounts (x :: l) = x.2 + sumCounts l := by
  simp [sumCounts]

theorem freshLoop_empty (today : CivilDate) (ranges : List (String × Option Nat)) :
    ∀ prevMax, sumCounts (freshLoop today ranges prevMax []) = 0 := by
  induction ranges with
  | nil => intro _; rfl
  | cons r rest ih =>
    intro prevMax
    obtain ⟨label, m⟩ := r
    cases m with
    | none => simpa [freshLoop, sumCounts_cons] using ih prevMax
    | some k => simpa [freshLoop, sumCounts_cons] using ih k

theorem freshLoop_sum (today : CivilDate) :
    ∀ ranges : List (String × Option Nat), (ranges.any fun r => r.2.isNone) = true →
      ∀ (prevMax : Nat) (remaining : List JobRecord),
        sumCounts (freshLoop today ranges prevMax remaining) = remaining.length := by
  intro ranges
  induction ranges with
  | nil => intro h; simp at h
  | cons r rest ih =>
    intro hany prevMax remaining
    obtain ⟨label, m⟩ := r
    cases m with
    | none =>
      simp only [freshLoop, sumCounts_cons, freshLoop_empty today rest prevMax]
      omega
    | some k =>
      have hrest : (rest.any fun r => r.2.isNone) = true := by simpa using hany
      simp only [freshLoop, sumCounts_cons,
        ih hrest k (remaining.filter (fun j => !(freshKeep today k prevMax j)))]
      exact length_filter_add_length_filter_not remaining (freshKeep today k prevMax)

/-- C3.  The five freshness-bucket counts always sum to the subset size:
every record lands in exactly one band and none is dropped. -/
theorem freshness_counts_sum (data : List JobRecord) :
    sumCounts (postingFreshness data) = data.length :=
  freshLoop_sum refDate freshnessRanges (by decide) 0 data

theorem jsLtChars_trans :
    ∀ a b c : List Char, jsLtChars a b = true → jsLtChars b c = true →
      jsLtChars a c = true
  | [], [], _, h1, _ => by simp [jsLtChars] at h1
  | [], _ :: _, [], _, h2 => by simp [jsLtChars] at h2
  | [], _ :: _, _ :: _, _, _ => rfl
  | _ :: _, [], _, h1, _ => by simp [jsLtChars] at h1
  | _ :: _, _ :: _, [], _, h2 => by simp [jsLtChars] at h2
  | x :: xs, y :: ys, z :: zs, h1, h2 => by
    simp only [jsLtChars] at h1 h2 ⊢
    rcases lt_trichotomy x y with hxy | hxy | hxy
    · rcases lt_trichotomy y z with hyz | hyz | hyz
      · simp [lt_trans hxy hyz]
      · subst hyz; simp [hxy]
      · rw [if_neg hyz.asymm, if_pos hyz] at h2; exact absurd h2 (by simp)
    · subst hxy
      rcases lt_trichotomy x z with hxz | hxz | hxz
      · simp [hxz]
      · subst hxz
        simp only [lt_irrefl, if_false] at h1 h2 ⊢
        exact jsLtChars_trans xs ys zs h1 h2
      · rw [if_neg hxz.asymm, if_pos hxz] at h2; exact absurd h2 (by simp)
    · rw [if_neg hxy.asymm, if_pos hxy] at h1; exact absurd h1 (by simp)

theorem jsStrLt_trans {a b c : String} (h1 : jsStrLt a b = true)
    (h2 : jsStrLt b c = true) : jsStrLt a c = true :=
  jsLtChars_trans a.toList b.toList c.toList h1 h2

theorem filter_filter_eq {α : Type} {p q r : α → Bool} (h : ∀ a, (p a && q a) = r a) :
    ∀ l : List α, (l.filter p).filter q = l.filter r
  | [] => rfl
  | x :: l => by
    have hx := h x
    cases hp : p x <;> cases hq : q x <;> rw [hp, hq] at hx <;>
      simp [List.filter_cons, hp, hq, ← hx, filter_filter_eq h l]

/-- C10.  Freshness bucketization is relative to the hardcoded reference
date 2026-02-27: for every subset the five counts are exactly the counts of
the fixed bands cut at 2026-02-22 / 2026-02-17 / 2026-01-28 / 2025-12-29,
independent of any caller-supplied or current date. -/
theorem freshness_fixed_reference (data : List JobRecord) :
    postingFreshness data =
      [("Last 5 days", (data.filter (fun j => band0 j.datePosted)).length),
       ("6–10 days", (data.filter (fun j => band1 j.datePosted)).length),
       ("11–30 days", (data.filter (fun j => band2 j.datePosted)).length),
       ("31–60 days", (data.filter (fun j => band3 j.datePosted)).length),
       ("60+ days", (data.filter (fun j => band4 j.datePosted)).length)] := by
  have e5 : isoString (subDays refDate 5) = "2026-02-22" := by decide
  have e10 : isoString (subDays refDate 10) = "2026-02-17" := by decide
  have e30 : isoString (subDays refDate 30) = "2026-01-28" := by decide
  have e60 : isoString (subDays refDate 60) = "2025-12-29" := by decide
  have k0 : freshKeep refDate 5 0 = fun j => band0 j.datePosted := by
    funext j; simp [freshKeep, band0, e5]
  have k1 : freshKeep refDate 10 5 = fun j => band1 j.datePosted := by
    funext j; simp [freshKeep, band1, e10, e5]
  have k2 : freshKeep refDate 30 10 = fun j => band2 j.datePosted := by
    funext j; simp [freshKeep, band2, e30, e10]
  have k3 : freshKeep refDate 60 30 = fun j => band3 j.datePosted := by
    funext j; simp [freshKeep, band3, e60, e30]
  have s1 : ∀ d, (!(band0 d) && band1 d) = band1 d := by
    intro d; simp only [band0, band1, jsStrLe]
    cases jsStrLt d "2026-02-17" <;> cases jsStrLt d "2026-02-22" <;> simp
  have s2 : ∀ d, (!(band0 d) && !(band1 d)) = jsStrLt d "2026-02-17" := by
    intro d; simp only [band0, band1, jsStrLe]
    cases h10 : jsStrLt d "2026-02-17"
    · cases jsStrLt d "2026-02-22" <;> simp
    · simp [jsStrLt_trans h10 (by decide : jsStrLt "2026-02-17" "2026-02-22" = true)]
  have s3 : ∀ d, (jsStrLt d "2026-02-17" && band2 d) = band2 d := by
    intro d; simp only [band2, jsStrLe]
    cases jsStrLt d "2026-02-17" <;> cases jsStrLt d "2026-01-28" <;> simp
  have s4 : ∀ d, (jsStrLt d "2026-02-17" && !(band2 d)) = jsStrLt d "2026-01-28" := by
    intro d; simp only [band2, jsStrLe]
    cases h30 : jsStrLt d "2026-01-28"
    · cases jsStrLt d "2026-02-17" <;> simp
    · simp [jsStrLt_trans h30 (by decide : jsStrLt "2026-01-28" "2026-02-17" = true)]
  have s5 : ∀ d, (jsStrLt d "2026-01-28" && band3 d) = band3 d := by
    intro d; simp only [band3, jsStrLe]
    cases jsStrLt d "2026-01-28" <;> cases jsStrLt d "2025-12-29" <;> simp
  have s6 : ∀ d, (jsStrLt d "2026-01-28" && !(band3 d)) = band4 d := by
    intro d; simp only [band3, band4, jsStrLe]
    cases h60 : jsStrLt d "2025-12-29"
    · cases jsStrLt d "2026-01-28" <;> simp
    · simp [jsStrLt_trans h60 (by decide : jsStrLt "2025-12-29" "2026-01-28" = true)]
  simp only [postingFreshness, freshnessRanges, freshLoop, k0, k1, k2, k3]
  rw [filter_filter_eq (fun j => s1 j.datePosted) data,
    filter_filter_eq (fun j => s2 j.datePosted) data,
    filter_filter_eq (fun j => s3 j.datePosted) data,
    filter_filter_eq (fun j => s4 j.datePosted) data,
    filter_filter_eq (fun j => s5 j.datePosted) data,
    filter_filter_eq (fun j => s6 j.datePosted) data]

/-- Counterexample to C2: a record whose datePosted is not parseable as a
calendar date is not excluded.  Freshness bucketing counts it ("banana"
compares above "2026-02-22", so it lands in the first band), and the
date-lower-bound filter keeps it; there is no skipped-record list. -/
theorem malformed_date_not_excluded :
    postingFreshness [badDateJob]
        = [("Last 5 days", 1), ("6–10 days", 0), ("11–30 days", 0), ("31–60 days", 0),
           ("60+ days", 0)] ∧
    dateLowerStage "2026-01-01" [badDateJob] = [badDateJob] := by decide

/-- Helper for the band partition: with the inner strict bounds ordered by
implication, exactly one of the five band shapes is true. -/
theorem band_partition (v5 v10 v30 v60 : Bool)
    (h1 : v60 = true → v30 = true) (h2 : v30 = true → v10 = true)
    (h3 : v10 = true → v5 = true) :
    ([!v5, !v10 && v5, !v30 && v10, !v60 && v30, v60].countP (fun b => b)) = 1 := by
  revert h1 h2 h3
  cases v5 <;> cases v10 <;> cases v30 <;> cases v60 <;> decide

/-- C2 as amended: records with malformed dates are neither excluded nor
reported.  The date bounds compare the raw strings lexicographically (an
empty bound means no restriction), and every record — parseable date or
not — satisfies exactly one of the five band predicates, so it is bucketed
exactly once; no skipped-record list is produced anywhere. -/
theorem malformed_dates_lexicographic (dateFrom dateTo : String)
    (data : List JobRecord) (j : JobRecord) :
    (j ∈ dateLowerStage dateFrom data ↔
      j ∈ data ∧ (dateFrom ≠ "" → jsStrLe dateFrom j.datePosted = true)) ∧
    (j ∈ dateUpperStage dateTo data ↔
      j ∈ data ∧ (dateTo ≠ "" → jsStrLe j.datePosted dateTo = true)) ∧
    ([band0, band1, band2, band3, band4].countP (fun b => b j.datePosted) = 1) := by
  refine ⟨?_, ?_, ?_⟩
  · by_cases hf : dateFrom = "" <;> simp [dateLowerStage, hf, List.mem_filter]
  · by_cases ht : dateTo = "" <;> simp [dateUpperStage, ht, List.mem_filter]
  · have hpart := band_partition (jsStrLt j.datePosted "2026-02-22")
      (jsStrLt j.datePosted "2026-02-17") (jsStrLt j.datePosted "2026-01-28")
      (jsStrLt j.datePosted "2025-12-29")
      (fun h => jsStrLt_trans h (by decide))
      (fun h => jsStrLt_trans h (by decide))
      (fun h => jsStrLt_trans h (by decide))
    simpa [band0, band1, band2, band3, band4, jsStrLe, List.countP_cons] using hpart

/-! ## C4: no-restriction filter state is the identity -/

theorem insertStr_perm (x : String) : ∀ l : List String, List.Perm (insertStr x l) (x :: l)
  | [] => List.Perm.refl _
  | y :: ys => by
    simp only [insertStr]
    by_cases h : jsStrLe x y = true
    · rw [if_pos h]
    · rw [if_neg h]
      exact ((insertStr_perm x ys).cons y).trans (List.Perm.swap x y ys)

theorem sortStr_perm : ∀ l : List String, List.Perm (sortStr l) l
  | [] => List.Perm.refl _
  | x :: l =>
    (insertStr_perm x (sortStr l)).trans ((sortStr_perm l).cons x)

theorem dedupFirst_aux_nodup :
    ∀ (vals acc : List String), acc.Nodup →
      (vals.foldl (fun acc v => if acc.contains v then acc else acc ++ [v]) acc).Nodup
  | [], _, h => h
  | v :: vals, acc, h => by
    simp only [List.foldl_cons]
    by_cases hc : acc.contains v = true
    · rw [if_pos hc]; exact dedupFirst_aux_nodup vals acc h
    · rw [if_neg hc]
      refine dedupFirst_aux_nodup vals _ ?_
      have hv : v ∉ acc := by simpa using hc
      simp [List.nodup_append, h, hv]

theorem dedupFirst_nodup (vals : List String) : (dedupFirst vals).Nodup :=
  dedupFirst_aux_nodup vals [] List.nodup_nil

theorem getUniqueValues_nodup (data : List JobRecord) (field : JobRecord → String) :
    (getUniqueValues data field).Nodup :=
  ((sortStr_perm _).nodup_iff).mpr (dedupFirst_nodup _)

/-- C4.  When every dimension is "no restriction" — no active category, each
selected set equal to the full set of distinct field values, wage band
"all", empty date bounds, blank query — the pipeline returns the record
store unchanged (in particular, equal as a set of ids). -/
theorem no_restriction_identity (jobs : List JobRecord) (fs : FilterState)
    (h1 : fs.activeCategory = none)
    (h2 : fs.selectedEmployers = (getUniqueValues jobs (fun j => j.employer)).toFinset)
    (h3 : fs.selectedLocations = (getUniqueValues jobs (fun j => j.location)).toFinset)
    (h4 : fs.selectedStatuses = (getUniqueValues jobs (fun j => j.status)).toFinset)
    (h5 : fs.wageFilter = "all") (h6 : fs.dateFrom = "") (h7 : fs.dateTo = "")
    (h8 : fs.searchText = "") :
    filteredJobs jobs fs = jobs := by
  have hcard : ∀ field : JobRecord → String,
      ((getUniqueValues jobs field).toFinset).card = (getUniqueValues jobs field).length :=
    fun field => List.toFinset_card_of_nodup (getUniqueValues_nodup jobs field)
  have ht : jsTrim "" = "" := by decide
  simp only [filteredJobs, h1, h2, h3, h4, h5, h6, h7, h8, hcard,
    categoryStage, wageStage, dateLowerStage, dateUpperStage, searchStage, ht]
  simp

def jobs0 : List JobRecord := [titleJob 1 "Alpha", titleJob 2 "Beta"]

def fs0 : FilterState :=
  ⟨none, (getUniqueValues jobs0 (fun j => j.employer)).toFinset,
   (getUniqueValues jobs0 (fun j => j.location)).toFinset,
   (getUniqueValues jobs0 (fun j => j.status)).toFinset, "all", "", "", ""⟩

/-- Witness for C4: the all-defaults filter state leaves a concrete record
store unchanged. -/
theorem no_restriction_identity_witness : filteredJobs jobs0 fs0 = jobs0 :=
  no_restriction_identity jobs0 fs0 rfl rfl rfl rfl rfl rfl rfl rfl

/-! ## C7, C9: group-by-count ranking -/

theorem mem_insertDesc (a x : String × Nat) :
    ∀ l : List (String × Nat), a ∈ insertDesc x l ↔ a = x ∨ a ∈ l
  | [] => by simp [insertDesc]
  | y :: ys => by
    simp only [insertDesc]
    by_cases h : y.2 < x.2
    · rw [if_pos h]
      simp [List.mem_cons]
    · rw [if_neg h]
      simp only [List.mem_cons, mem_insertDesc a x ys]
      tauto

theorem insertDesc_perm (x : String × Nat) :
    ∀ l : List (String × Nat), List.Perm (insertDesc x l) (x :: l)
  | [] => List.Perm.refl _
  | y :: ys => by
    simp only [insertDesc]
    by_cases h : y.2 < x.2
    · rw [if_pos h]
    · rw [if_neg h]
      exact ((insertDesc_perm x ys).cons y).trans (List.Perm.swap x y ys)

theorem sortByCountDesc_aux_perm :
    ∀ l acc : List (String × Nat),
      List.Perm (l.foldl (fun acc x => insertDesc x acc) acc) (acc ++ l)
  | [], acc => by simp
  | x :: l, acc => by
    simp only [List.foldl_cons]
    refine (sortByCountDesc_aux_perm l (insertDesc x acc)).trans ?_
    refine (List.Perm.append_right l (insertDesc_perm x acc)).trans ?_
    exact List.perm_middle.symm

theorem sortByCountDesc_perm (l : List (String × Nat)) :
    List.Perm (sortByCountDesc l) l := by
  simpa using sortByCountDesc_aux_perm l []

theorem mem_sortByCountDesc {a : String × Nat} {l : List (String × Nat)} :
    a ∈ sortByCountDesc l ↔ a ∈ l :=
  (sortByCountDesc_perm l).mem_iff

theorem insertDesc_pairwise {T : (String × Nat) → (String × Nat) → Prop} (x : String × Nat) :
    ∀ l : List (String × Nat),
      l.Pairwise (fun a b => b.2 ≤ a.2 ∧ (a.2 = b.2 → T a b)) →
      (∀ y ∈ l, y.2 = x.2 → T y x) →
      (insertDesc x l).Pairwise (fun a b => b.2 ≤ a.2 ∧ (a.2 = b.2 → T a b))
  | [], _, _ => List.pairwise_singleton _ _
  | y :: ys, hpw, hcross => by
    simp only [insertDesc]
    obtain ⟨hhead, htail⟩ := List.pairwise_cons.mp hpw
    by_cases h : y.2 < x.2
    · rw [if_pos h]
      refine List.pairwise_cons.mpr ⟨?_, hpw⟩
      intro z hz
      rcases List.mem_cons.mp hz with rfl | hz
      · exact ⟨le_of_lt h, fun he => absurd he (by omega)⟩
      · have hy := hhead z hz
        exact ⟨le_trans hy.1 (le_of_lt h), fun he => absurd he (by omega)⟩
    · rw [if_neg h]
      refine List.pairwise_cons.mpr ⟨?_, insertDesc_pairwise x ys htail ?_⟩
      · intro z hz
        rcases (mem_insertDesc z x ys).mp hz with rfl | hz
        · exact ⟨not_lt.mp h, fun he => hcross y (List.mem_cons_self y ys) he⟩
        · exact hhead z hz
      · intro z hz he
        exact hcross z (List.mem_cons_of_mem y hz) he

theorem sortDesc_aux_pairwise {T : (String × Nat) → (String × Nat) → Prop} :
    ∀ l acc : List (String × Nat),
      acc.Pairwise (fun a b => b.2 ≤ a.2 ∧ (a.2 = b.2 → T a b)) →
      (∀ a ∈ acc, ∀ b ∈ l, a.2 = b.2 → T a b) →
      l.Pairwise (fun a b => a.2 = b.2 → T a b) →
      (l.foldl (fun acc x => insertDesc x acc) acc).Pairwise
        (fun a b => b.2 ≤ a.2 ∧ (a.2 = b.2 → T a b))
  | [], _, hacc, _, _ => hacc
  | x :: l, acc, hacc, hcross, hpw => by
    simp only [List.foldl_cons]
    obtain ⟨hhead, htail⟩ := List.pairwise_cons.mp hpw
    refine sortDesc_aux_pairwise l (insertDesc x acc) ?_ ?_ htail
    · exact insertDesc_pairwise x acc hacc
        (fun y hy he => hcross y hy x (List.mem_cons_self x l) he)
    · intro a ha b hb he
      rcases (mem_insertDesc a x acc).mp ha with rfl | ha
      · exact hhead b hb he
      · exact hcross a ha b (List.mem_cons_of_mem x hb) he

theorem sortByCountDesc_pairwise {T : (String × Nat) → (String × Nat) → Prop}
    (l : List (String × Nat)) (hpw : l.Pairwise (fun a b => a.2 = b.2 → T a b)) :
    (sortByCountDesc l).Pairwise (fun a b => b.2 ≤ a.2 ∧ (a.2 = b.2 → T a b)) :=
  sortDesc_aux_pairwise l [] List.Pairwise.nil (by simp) hpw

theorem bump_keys (k : String) :
    ∀ counts : List (String × Nat),
      (bump counts k).map Prod.fst =
        if (counts.map Prod.fst).contains k then counts.map Prod.fst
        else counts.map Prod.fst ++ [k]
  | [] => by simp [bump]
  | (x, v) :: rest => by
    simp only [bump]
    by_cases h : x = k
    · subst h; simp
    · rw [if_neg h]
      simp only [List.map_cons, bump_keys k rest]
      have hxk : (k == x) = false := beq_eq_false_iff_ne.mpr (Ne.symm h)
      rw [List.contains_cons, hxk, Bool.false_or]
      by_cases hc : ((rest.map Prod.fst).contains k) = true
      · rw [if_pos hc, if_pos hc]
      · rw [if_neg hc, if_neg hc]
        simp

theorem countsBy_keys_aux :
    ∀ (vals : List String) (counts : List (String × Nat)),
      (vals.foldl bump counts).map Prod.fst =
        vals.foldl (fun acc v => if acc.contains v then acc else acc ++ [v])
          (counts.map Prod.fst)
  | [], _ => rfl
  | v :: vals, counts => by
    simp only [List.foldl_cons, countsBy_keys_aux vals (bump counts v), bump_keys v counts]

theorem countsBy_keys (vals : List String) :
    (countsBy vals).map Prod.fst = dedupFirst vals :=
  countsBy_keys_aux vals []

theorem idxIn_cons_self (x : String) (t : List String) : idxIn (x :: t) x = 0 := by
  simp [idxIn]

theorem idxIn_cons_ne (x e : String) (t : List String) (h : x ≠ e) :
    idxIn (x :: t) e = idxIn t e + 1 := by
  simp [idxIn, h]

theorem nodup_pairwise_idxIn :
    ∀ L : List String, L.Nodup → L.Pairwise (fun a b => idxIn L a < idxIn L b)
  | [], _ => List.Pairwise.nil
  | x :: t, h => by
    obtain ⟨hx, ht⟩ := List.nodup_cons.mp h
    refine List.pairwise_cons.mpr ⟨?_, ?_⟩
    · intro b hb
      have hbx : x ≠ b := fun he => hx (he ▸ hb)
      rw [idxIn_cons_self, idxIn_cons_ne x b t hbx]
      omega
    · refine (nodup_pairwise_idxIn t ht).imp_of_mem ?_
      intro a b ha hb hab
      have hxa : x ≠ a := fun he => hx (he ▸ ha)
      have hxb : x ≠ b := fun he => hx (he ▸ hb)
      rw [idxIn_cons_ne x a t hxa, idxIn_cons_ne x b t hxb]
      omega

theorem countsBy_pairwise_firstSeen (data : List JobRecord) :
    (countsBy (data.map (fun j => j.employer))).Pairwise
      (fun a b => seenRank data a.1 < seenRank data b.1) := by
  have hpw := nodup_pairwise_idxIn (firstSeen data) (dedupFirst_nodup _)
  have h2 : ((countsBy (data.map fun j => j.employer)).map Prod.fst).Pairwise
      (fun a b => idxIn (firstSeen data) a < idxIn (firstSeen data) b) := by
    rw [countsBy_keys]
    exact hpw
  have h3 := List.pairwise_map.mp h2
  exact h3

/-- C7.  The employer ranking is sorted by count descending, and employers
with equal counts appear in the order their values are first seen when
iterating the subset in its given order. -/
theorem topEmployers_ranking (data : List JobRecord) :
    (topEmployers data).Pairwise (fun a b =>
      b.2 ≤ a.2 ∧ (a.2 = b.2 → seenRank data a.1 < seenRank data b.1)) := by
  have hP : (countsBy (data.map fun j => j.employer)).Pairwise
      (fun a b => a.2 = b.2 → seenRank data a.1 < seenRank data b.1) :=
    (countsBy_pairwise_firstSeen data).imp (fun {a b} h (_ : a.2 = b.2) => h)
  have hsorted := sortByCountDesc_pairwise _ hP
  exact hsorted.sublist (List.take_sublist 8 _)

/-- Witness for C7 at a concrete subset. -/
theorem topEmployers_ranking_witness :
    (topEmployers cexPhrases).Pairwise (fun a b =>
      b.2 ≤ a.2 ∧ (a.2 = b.2 → seenRank cexPhrases a.1 < seenRank cexPhrases b.1)) :=
  topEmployers_ranking cexPhrases

/-- C9.  The ranking handed to the chart is truncated to at most 8 pairs,
and every entry dropped by the truncation has a count no larger than any
kept entry (only the 8 highest-count employers are kept). -/
theorem topEmployers_truncation (data : List JobRecord) :
    (topEmployers data).length ≤ 8 ∧
    ∀ q ∈ sortByCountDesc (countsBy (data.map (fun j => j.employer))),
      q ∉ topEmployers data → ∀ p ∈ topEmployers data, q.2 ≤ p.2 := by
  constructor
  · exact List.length_take_le 8 _
  · intro q hq hqn p hp
    have hP : (countsBy (data.map fun j => j.employer)).Pairwise
        (fun a b => a.2 = b.2 → seenRank data a.1 < seenRank data b.1) :=
      (countsBy_pairwise_firstSeen data).imp (fun {a b} h (_ : a.2 = b.2) => h)
    have hsorted : (sortByCountDesc (countsBy (data.map fun j => j.employer))).Pairwise
        (fun a b : String × Nat => b.2 ≤ a.2) :=
      (sortByCountDesc_pairwise _ hP).imp (fun h => h.1)
    set L := sortByCountDesc (countsBy (data.map fun j => j.employer)) with hL
    have hq2 : q ∈ L.take 8 ++ L.drop 8 := by
      rw [List.take_append_drop]
      exact hq
    have hqdrop : q ∈ L.drop 8 := by
      rcases List.mem_append.mp hq2 with h | h
      · exact absurd h hqn
      · exact h
    have happ : (L.take 8 ++ L.drop 8).Pairwise (fun a b : String × Nat => b.2 ≤ a.2) := by
      rw [List.take_append_drop]
      exact hsorted
    exact (List.pairwise_append.mp happ).2.2 p hp q hqdrop

/-- Witness for C9 at a concrete subset. -/
theorem topEmployers_truncation_witness :
    (topEmployers cexPhrases).length ≤ 8 ∧
    ∀ q ∈ sortByCountDesc (countsBy (cexPhrases.map (fun j => j.employer))),
      q ∉ topEmployers cexPhrases → ∀ p ∈ topEmployers cexPhrases, q.2 ≤ p.2 :=
  topEmployers_truncation cexPhrases

/-! ## C1, C5: phrase extractor -/

/-- Looking up a key in the insertion-ordered count map (0 when absent). -/
def getCount : List (String × Nat) → String → Nat
  | [], _ => 0
  | (k, v) :: rest, e => if k = e then v else getCount rest e

theorem getCount_bump_self (k : String) :
    ∀ counts, getCount (bump counts k) k = getCount counts k + 1
  | [] => by simp [bump, getCount]
  | (x, v) :: rest => by
    by_cases h : x = k
    · subst h; simp [bump, getCount]
    · simp [bump, getCount, h, getCount_bump_self k rest]

theorem getCount_bump_ne (k e : String) (hne : k ≠ e) :
    ∀ counts, getCount (bump counts k) e = getCount counts e
  | [] => by simp [bump, getCount, hne]
  | (x, v) :: rest => by
    by_cases h : x = k
    · subst h; simp [bump, getCount, hne]
    · simp [bump, getCount, h, getCount_bump_ne k e hne rest]

theorem getCount_addWindows_le (c0 : List (String × Nat)) :
    ∀ (wins : List String) (counts : List (String × Nat)) (seen : List String),
      (∀ k, getCount counts k ≤ getCount c0 k + 1) →
      (∀ k, seen.contains k = false → getCount counts k = getCount c0 k) →
      ∀ k, getCount (addWindows counts seen wins) k ≤ getCount c0 k + 1
  | [], _, _, h1, _, k => h1 k
  | w :: wins, counts, seen, h1, h2, k => by
    simp only [addWindows]
    by_cases hs : seen.contains w = true
    · rw [if_pos hs]
      exact getCount_addWindows_le c0 wins counts seen h1 h2 k
    · rw [if_neg hs]
      have hs' : seen.contains w = false := by simpa using hs
      refine getCount_addWindows_le c0 wins (bump counts w) (w :: seen) ?_ ?_ k
      · intro e
        by_cases he : w = e
        · subst he
          rw [getCount_bump_self, h2 w hs']
        · rw [getCount_bump_ne w e he]; exact h1 e
      · intro e he
        rw [List.contains_cons] at he
        have h3 := Bool.or_eq_false_iff.mp he
        have hne : w ≠ e := by
          intro heq; subst heq
          simp at h3
        rw [getCount_bump_ne w e hne]
        exact h2 e h3.2

theorem getCount_addTitle_le (counts : List (String × Nat)) (ws : List String) (k : String) :
    getCount (addTitle counts ws) k ≤ getCount counts k + 1 :=
  getCount_addWindows_le counts (titleWindows ws) counts [] (fun _ => by omega)
    (fun _ _ => rfl) k

theorem getCount_phraseCountsFrom_le :
    ∀ (data : List JobRecord) (counts : List (String × Nat)) (k : String),
      getCount (phraseCountsFrom counts data) k ≤ getCount counts k + data.length
  | [], _, _ => by simp [phraseCountsFrom]
  | j :: rest, counts, k => by
    simp only [phraseCountsFrom, List.length_cons]
    have h1 := getCount_phraseCountsFrom_le rest (addTitle counts (cleanTitle j.jobTitle)) k
    have h2 := getCount_addTitle_le counts (cleanTitle j.jobTitle) k
    omega

theorem keys_nodup_bump (k : String) (counts : List (String × Nat))
    (h : (counts.map Prod.fst).Nodup) : ((bump counts k).map Prod.fst).Nodup := by
  rw [bump_keys]
  by_cases hc : ((counts.map Prod.fst).contains k) = true
  · rw [if_pos hc]; exact h
  · rw [if_neg hc]
    have hk : k ∉ counts.map Prod.fst := by simpa using hc
    simp [List.nodup_append, h, hk]

theorem keys_nodup_addWindows :
    ∀ (wins seen : List String) (counts : List (String × Nat)),
      (counts.map Prod.fst).Nodup → ((addWindows counts seen wins).map Prod.fst).Nodup
  | [], _, _, h => h
  | w :: wins, seen, counts, h => by
    simp only [addWindows]
    by_cases hs : seen.contains w = true
    · rw [if_pos hs]; exact keys_nodup_addWindows wins seen counts h
    · rw [if_neg hs]
      exact keys_nodup_addWindows wins (w :: seen) (bump counts w) (keys_nodup_bump w counts h)

theorem keys_nodup_phraseCountsFrom :
    ∀ (data : List JobRecord) (counts : List (String × Nat)),
      (counts.map Prod.fst).Nodup → ((phraseCountsFrom counts data).map Prod.fst).Nodup
  | [], _, h => h
  | _ :: rest, _, h => keys_nodup_phraseCountsFrom rest _ (keys_nodup_addWindows _ _ _ h)

theorem mem_getCount :
    ∀ l : List (String × Nat), (l.map Prod.fst).Nodup →
      ∀ (p : String) (c : Nat), (p, c) ∈ l → getCount l p = c
  | [], _, p, c, h => by simp at h
  | (x, v) :: rest, hnd, p, c, h => by
    rw [List.map_cons] at hnd
    obtain ⟨hx, ht⟩ := List.nodup_cons.mp hnd
    rcases List.mem_cons.mp h with heq | hm
    · injection heq with h1 h2
      subst h1; subst h2
      simp [getCount]
    · have hpx : x ≠ p := by
        intro he; subst he
        exact hx (List.mem_map.mpr ⟨(x, c), hm, rfl⟩)
      simp only [getCount, if_neg hpx]
      exact mem_getCount rest ht p c hm

theorem phraseCounts_le (data : List JobRecord) (p : String) (c : Nat)
    (h : (p, c) ∈ phraseCounts data) : c ≤ data.length := by
  have hnd : ((phraseCounts data).map Prod.fst).Nodup :=
    keys_nodup_phraseCountsFrom data [] List.nodup_nil
  have heq := mem_getCount (phraseCounts data) hnd p c h
  have hle := getCount_phraseCountsFrom_le data [] p
  simp only [getCount] at hle
  rw [show phraseCounts data = phraseCountsFrom [] data from rfl] at heq
  omega

theorem selectLoop_subset :
    ∀ (cs acc : List (String × Nat)) (x : String × Nat),
      x ∈ selectLoop cs acc → x ∈ acc ∨ x ∈ cs
  | [], _, _, h => Or.inl h
  | (p, c) :: rest, acc, x, h => by
    simp only [selectLoop] at h
    by_cases hd : dominatedB acc p c = true
    · rw [if_pos hd] at h
      by_cases hl : 15 ≤ acc.length
      · rw [if_pos hl] at h; exact Or.inl h
      · rw [if_neg hl] at h
        rcases selectLoop_subset rest acc x h with h2 | h2
        · exact Or.inl h2
        · exact Or.inr (List.mem_cons_of_mem _ h2)
    · rw [if_neg hd] at h
      by_cases hl : 15 ≤ (acc ++ [(p, c)]).length
      · rw [if_pos hl] at h
        rcases List.mem_append.mp h with h2 | h2
        · exact Or.inl h2
        · exact Or.inr (List.mem_cons.mpr (Or.inl (List.mem_singleton.mp h2)))
      · rw [if_neg hl] at h
        rcases selectLoop_subset rest (acc ++ [(p, c)]) x h with h2 | h2
        · rcases List.mem_append.mp h2 with h3 | h3
          · exact Or.inl h3
          · exact Or.inr (List.mem_cons.mpr (Or.inl (List.mem_singleton.mp h3)))
        · exact Or.inr (List.mem_cons_of_mem _ h2)

theorem selectLoop_length :
    ∀ (cs acc : List (String × Nat)), acc.length < 15 → (selectLoop cs acc).length ≤ 15
  | [], _, h => by simp only [selectLoop]; omega
  | (p, c) :: rest, acc, h => by
    simp only [selectLoop]
    by_cases hd : dominatedB acc p c = true
    · rw [if_pos hd]
      by_cases hl : 15 ≤ acc.length
      · rw [if_pos hl]; omega
      · rw [if_neg hl]; exact selectLoop_length rest acc h
    · rw [if_neg hd]
      by_cases hl : 15 ≤ (acc ++ [(p, c)]).length
      · rw [if_pos hl]
        simp only [List.length_append, List.length_singleton]
        omega
      · rw [if_neg hl]
        refine selectLoop_length rest _ ?_
        simp only [List.length_append, List.length_singleton] at hl ⊢
        omega

/-- C5.  Every emitted phrase has support at least 2 and at most the number
of records (a title contributes at most 1 to each distinct phrase); at most
15 phrases are emitted; hence fewer than 2 records yield no phrase at all. -/
theorem topKeywords_support (data : List JobRecord) :
    (∀ x ∈ topKeywords data, 2 ≤ x.2 ∧ x.2 ≤ data.length) ∧
    (topKeywords data).length ≤ 15 ∧
    (data.length < 2 → topKeywords data = []) := by
  have hbound : ∀ x ∈ topKeywords data, 2 ≤ x.2 ∧ x.2 ≤ data.length := by
    intro x hx
    obtain ⟨y, hy, rfl⟩ := List.mem_map.mp hx
    have hy2 : y ∈ phraseCandidates data := by
      rcases selectLoop_subset _ [] y hy with h | h
      · simp at h
      · exact h
    have hmem : y ∈ (phraseCounts data).filter (fun p => decide (2 ≤ p.2)) :=
      mem_sortByCountDesc.mp hy2
    have hf := List.mem_filter.mp hmem
    have h2 : 2 ≤ y.2 := by simpa using hf.2
    exact ⟨h2, phraseCounts_le data y.1 y.2 hf.1⟩
  have hlen15 : (topKeywords data).length ≤ 15 := by
    simp only [topKeywords, List.length_map]
    exact selectLoop_length _ [] (by decide)
  refine ⟨hbound, hlen15, ?_⟩
  intro hsmall
  rw [List.eq_nil_iff_forall_not_mem]
  intro x hx
  have := hbound x hx
  omega

/-- Witness for C5: the empty subset yields no phrase. -/
theorem topKeywords_support_witness : topKeywords ([] : List JobRecord) = [] :=
  (topKeywords_support []).2.2 (by decide)

/-- Counterexample to C1: on the four titles "Data Center Engineer" (twice),
"Data Center Manager" and "Network Center Engineer", the extractor keeps
both "Data Center" (support 3) and its strict superphrase
"Data Center Engineer" (support 2): a longer candidate whose support is
strictly below the kept shorter phrase's support is not dropped. -/
theorem phrase_containment_violated :
    topKeywords cexPhrases =
      [("Data Center", 3), ("Center Engineer", 3), ("Data Center Engineer", 2)] ∧
    jsIncludes "Data Center Engineer" "Data Center" = true := by decide

/-- C1 as amended: a candidate is dropped when it is a substring of an
already-kept phrase, or when an already-kept phrase is a substring of it
and its support is at least the candidate's; a candidate that strictly
contains a kept phrase of strictly greater support is kept.  Hence in the
emitted order no earlier phrase has a later phrase as a substring, and when
an earlier kept phrase is a substring of a later kept phrase, the later
phrase has strictly smaller support. -/
theorem phrase_containment_rule (data : List JobRecord) :
    (selectedPhrases data).Pairwise (fun a b =>
      jsIncludes a.1 b.1 = false ∧ (jsIncludes b.1 a.1 = true → b.2 < a.2)) := by
  have main : ∀ cs acc : List (String × Nat),
      acc.Pairwise (fun a b =>
        jsIncludes a.1 b.1 = false ∧ (jsIncludes b.1 a.1 = true → b.2 < a.2)) →
      (selectLoop cs acc).Pairwise (fun a b =>
        jsIncludes a.1 b.1 = false ∧ (jsIncludes b.1 a.1 = true → b.2 < a.2)) := by
    intro cs
    induction cs with
    | nil => intro acc h; exact h
    | cons pc rest ih =>
      obtain ⟨p, c⟩ := pc
      intro acc h
      simp only [selectLoop]
      by_cases hd : dominatedB acc p c = true
      · rw [if_pos hd]
        by_cases hl : 15 ≤ acc.length
        · rw [if_pos hl]; exact h
        · rw [if_neg hl]; exact ih acc h
      · rw [if_neg hd]
        have hdf : dominatedB acc p c = false := by simpa using hd
        have hall : ∀ e ∈ acc,
            jsIncludes e.1 p = false ∧ (jsIncludes p e.1 = true → c < e.2) := by
          intro e he
          have h0 : (jsIncludes e.1 p || (jsIncludes p e.1 && decide (e.2 ≤ c))) = false :=
            by simpa using List.any_eq_false.mp hdf e he
          obtain ⟨h0a, h0b⟩ := Bool.or_eq_false_iff.mp h0
          refine ⟨h0a, fun hin => ?_⟩
          rw [hin, Bool.true_and] at h0b
          have := of_decide_eq_false h0b
          omega
        have hpush : (acc ++ [(p, c)]).Pairwise (fun a b =>
            jsIncludes a.1 b.1 = false ∧ (jsIncludes b.1 a.1 = true → b.2 < a.2)) := by
          rw [List.pairwise_append]
          refine ⟨h, List.pairwise_singleton _ _, ?_⟩
          intro a ha b hb
          rw [List.mem_singleton.mp hb]
          exact hall a ha
        by_cases hl : 15 ≤ (acc ++ [(p, c)]).length
        · rw [if_pos hl]; exact hpush
        · rw [if_neg hl]; exact ih _ hpush
  exact main _ [] List.Pairwise.nil
